import Mathlib

/-!
Shallow embedding of the iplib address-arithmetic core.

Addresses are big-endian byte sequences modelled as `List Nat` with every
element below 256 (4 bytes for IPv4, 16 bytes for IPv6), or — for the
prefix-fitting code, which never inspects individual bytes — as a single
natural number below `2 ^ w`.  Go's `uint128` counters are naturals with an
explicit `% 2 ^ 128` wherever the Go code can wrap, and `uint32` values get
an explicit `% 2 ^ 32` likewise.  Fallible operations return `Res α`, with
`Res.err` carrying the library's error value; a Go slice-index panic is
modelled by an `Option` layer returning `none`.
-/

namespace Iplib

/-- Error values of the library (iplib.go: ErrAddressOutOfRange,
ErrBadMaskLength, ErrNoValidRange). -/
inductive IPErr where
  | addressOutOfRange
  | badMaskLength
  | noValidRange
  deriving DecidableEq, Repr

/-- Result of a fallible library operation: a value or an error. -/
inductive Res (α : Type) where
  | ok (a : α)
  | err (e : IPErr)
  deriving DecidableEq, Repr

/-- Big-endian value of a byte sequence (bytes.Compare order; also
`uint128.FromBytesBE` and `big.Int.SetBytes`). -/
def bytesToNat (l : List Nat) : Nat :=
  l.foldl (fun acc b => acc * 256 + b) 0

/-- Big-endian encoding of `v mod 256^w` into exactly `w` bytes
(`uint128.PutBytesBE` for w = 16, `binary.BigEndian.PutUint32` for w = 4). -/
def natToBytes : Nat → Nat → List Nat
  | 0, _ => []
  | w + 1, v => natToBytes w (v / 256) ++ [v % 256]

/-- A byte sequence is well formed when every entry is below 256. -/
def goodBytes (l : List Nat) : Prop := ∀ b ∈ l, b < 256

theorem natToBytes_length (w v : Nat) : (natToBytes w v).length = w := by
  induction w generalizing v with
  | zero => rfl
  | succ w ih => simp [natToBytes, ih]

theorem bytesToNat_foldl (a : Nat) (l : List Nat) :
    l.foldl (fun acc b => acc * 256 + b) a = a * 256 ^ l.length + bytesToNat l := by
  induction l generalizing a with
  | nil => simp [bytesToNat]
  | cons b t ih =>
      show t.foldl _ (a * 256 + b) = _
      rw [ih (a * 256 + b)]
      have hb : bytesToNat (b :: t) = b * 256 ^ t.length + bytesToNat t := by
        show t.foldl _ (0 * 256 + b) = _
        rw [ih (0 * 256 + b)]
        ring
      rw [hb]
      simp [List.length_cons, pow_succ]
      ring

theorem bytesToNat_cons (b : Nat) (l : List Nat) :
    bytesToNat (b :: l) = b * 256 ^ l.length + bytesToNat l := by
  show l.foldl _ (0 * 256 + b) = _
  rw [bytesToNat_foldl]
  ring

theorem bytesToNat_append (l₁ l₂ : List Nat) :
    bytesToNat (l₁ ++ l₂) = bytesToNat l₁ * 256 ^ l₂.length + bytesToNat l₂ := by
  unfold bytesToNat
  rw [List.foldl_append]
  rw [show (List.foldl (fun acc b => acc * 256 + b) 0 l₁) = bytesToNat l₁ from rfl]
  exact bytesToNat_foldl _ _

theorem bytesToNat_natToBytes (w v : Nat) :
    bytesToNat (natToBytes w v) = v % 256 ^ w := by
  induction w generalizing v with
  | zero => simp [natToBytes, bytesToNat, Nat.mod_one]
  | succ w ih =>
      rw [natToBytes, bytesToNat_append, ih]
      have h1 : bytesToNat [v % 256] = v % 256 := by
        simp [bytesToNat]
      rw [h1]
      have key : v % 256 ^ (w + 1) = v % 256 + 256 * (v / 256 % 256 ^ w) := by
        rw [pow_succ', Nat.mod_mul]
      rw [key]
      simp only [List.length_cons, List.length_nil, pow_one]
      ring

theorem bytesToNat_lt (l : List Nat) (h : goodBytes l) :
    bytesToNat l < 256 ^ l.length := by
  induction l with
  | nil => simp [bytesToNat]
  | cons b t ih =>
      rw [bytesToNat_cons]
      have hb : b < 256 := h b (List.mem_cons_self b t)
      have ht : bytesToNat t < 256 ^ t.length :=
        ih (fun x hx => h x (List.mem_cons_of_mem b hx))
      have : (b + 1) * 256 ^ t.length ≤ 256 * 256 ^ t.length :=
        Nat.mul_le_mul_right _ (by omega)
      have hp : 256 * 256 ^ t.length = 256 ^ (b :: t).length := by
        simp [List.length_cons, pow_succ]
        ring
      calc b * 256 ^ t.length + bytesToNat t
          < (b + 1) * 256 ^ t.length := by nlinarith
        _ ≤ 256 * 256 ^ t.length := this
        _ = 256 ^ (b :: t).length := hp

theorem natToBytes_bytesToNat (l : List Nat) (h : goodBytes l) :
    natToBytes l.length (bytesToNat l) = l := by
  induction l using List.reverseRecOn with
  | nil => simp [natToBytes, bytesToNat]
  | append_singleton t b ih =>
      have hb : b < 256 := h b (by simp)
      have ht : goodBytes t := fun x hx => h x (by simp [hx])
      rw [bytesToNat_append]
      have hlen : (t ++ [b]).length = t.length + 1 := by simp
      rw [hlen, natToBytes]
      have hbv : bytesToNat [b] = b := by simp [bytesToNat]
      rw [hbv]
      simp only [List.length_cons, List.length_nil, pow_one]
      have h1 : (bytesToNat t * 256 + b) / 256 = bytesToNat t := by omega
      have h2 : (bytesToNat t * 256 + b) % 256 = b := by omega
      have e : (256 : Nat) ^ (0 + 1) = 256 := by norm_num
      rw [e, h1, h2, ih ht]

theorem goodBytes_natToBytes (w v : Nat) : goodBytes (natToBytes w v) := by
  induction w generalizing v with
  | zero => intro b hb; simp [natToBytes] at hb
  | succ w ih =>
      intro b hb
      rw [natToBytes] at hb
      rcases List.mem_append.1 hb with h | h
      · exact ih _ b h
      · simp at h; subst h; exact Nat.mod_lt _ (by norm_num)

/-- Splitting a big-endian encoding into a high part and a low part. -/
theorem natToBytes_split (a b v : Nat) :
    natToBytes (a + b) v = natToBytes a (v / 256 ^ b) ++ natToBytes b (v % 256 ^ b) := by
  induction b generalizing v with
  | zero => simp [natToBytes, Nat.mod_one]
  | succ b ih =>
      have e1 : v / 256 / 256 ^ b = v / 256 ^ (b + 1) := by
        rw [Nat.div_div_eq_div_mul, pow_succ']
      have e2 : v / 256 % 256 ^ b = v % 256 ^ (b + 1) / 256 := by
        rw [pow_succ', Nat.mod_mul_right_div_self]
      have e3 : v % 256 = v % 256 ^ (b + 1) % 256 := by
        rw [Nat.mod_mod_of_dvd _ (dvd_pow_self 256 (Nat.succ_ne_zero b))]
      calc natToBytes (a + (b + 1)) v
          = natToBytes (a + b) (v / 256) ++ [v % 256] := by
            rw [show a + (b + 1) = (a + b) + 1 from rfl]; rfl
        _ = (natToBytes a (v / 256 / 256 ^ b) ++ natToBytes b (v / 256 % 256 ^ b))
              ++ [v % 256] := by rw [ih]
        _ = natToBytes a (v / 256 ^ (b + 1)) ++
              (natToBytes b (v % 256 ^ (b + 1) / 256) ++ [v % 256 ^ (b + 1) % 256]) := by
            rw [e1, e2, e3, List.append_assoc]
        _ = natToBytes a (v / 256 ^ (b + 1)) ++ natToBytes (b + 1) (v % 256 ^ (b + 1)) := rfl

/-- Dropping the leading bytes of a big-endian encoding truncates the value
modulo the remaining width (Go's `xb[16-len(nb):]`). -/
theorem natToBytes_drop (w k v : Nat) (hk : k ≤ w) :
    (natToBytes w v).drop (w - k) = natToBytes k (v % 256 ^ k) := by
  obtain ⟨a, rfl⟩ : ∃ a, w = a + k := ⟨w - k, by omega⟩
  have h := List.drop_left (natToBytes a (v / 256 ^ k)) (natToBytes k (v % 256 ^ k))
  rw [natToBytes_length] at h
  rw [Nat.add_sub_cancel, natToBytes_split]
  exact h

/-! ## HostMask (hostmask.go)

A `HostMask` is a 16-byte big-endian mask filled with one-bits from the
least-significant byte upward; within the boundary byte the bits are filled
from the most-significant bit downward. -/

/-- Little-endian construction of the filled tail of a hostmask, mirroring
the loop `for i := 15; i >= 0; i--` in NewHostMask: whole `0xff` bytes while
at least 8 bits remain, then one partial byte `^(0xff >> masklen)`, then
zero bytes. -/
def newHostMaskLE : Nat → Nat → List Nat
  | _, 0 => []
  | masklen, n + 1 =>
    if masklen < 8 then (256 - 2 ^ (8 - masklen)) :: List.replicate n 0
    else 255 :: newHostMaskLE (masklen - 8) n

/-- NewHostMask returns a HostMask initialized to masklen. -/
def NewHostMask (masklen : Nat) : List Nat :=
  if masklen = 0 then List.replicate 16 0
  else (newHostMaskLE masklen 16).reverse

/-- Count of leading one-bits of a byte, mirroring the inner loop of
HostMask.Size: `for b&0x80 != 0 { ones++; b <<= 1 }` (a byte shifts to zero
after at most 8 steps, hence the fuel of 8). -/
def leadingOnesAux : Nat → Nat → Nat
  | _, 0 => 0
  | b, f + 1 => if b &&& 128 ≠ 0 then 1 + leadingOnesAux (b * 2 % 256) f else 0

def leadingOnes (b : Nat) : Nat := leadingOnesAux b 8

/-- Scan of HostMask.Size over the mask from the last byte backward: 8 ones
per `0xff` byte, then the leading ones of the first non-`0xff` byte. -/
def sizeLE : List Nat → Nat
  | [] => 0
  | b :: bs => if b = 255 then 8 + sizeLE bs else leadingOnes b

/-- Size returns the number of one-bits in the mask (the total bit count of
the Go version is always 128 and is omitted). -/
def Size (m : List Nat) : Nat := sizeLE m.reverse

/-- BoundaryByte returns the rightmost byte in the mask in which any bits
fall inside the hostmask, together with its position; `(0, -1)` if the mask
is unset. -/
def BoundaryByte (m : List Nat) : Nat × Int :=
  let hmlen := Size m
  if hmlen = 0 then (0, -1)
  else
    let quo := if hmlen % 8 = 0 then hmlen / 8 - 1 else hmlen / 8
    let pos := 15 - quo
    (m.getD pos 0, (pos : Int))

example : NewHostMask 58 = [0, 0, 0, 0, 0, 0, 0, 0, 192, 255, 255, 255, 255, 255, 255, 255] := by decide
example : BoundaryByte (NewHostMask 58) = (192, 8) := by decide
example : BoundaryByte (NewHostMask 32) = (255, 12) := by decide
example : Size (NewHostMask 60) = 60 := by decide
example : BoundaryByte (NewHostMask 0) = (0, -1) := by decide
example : BoundaryByte (NewHostMask 128) = (255, 0) := by decide

/-! ## Boundary-byte arithmetic and bulk increment (hostmask.go) -/

/-- incrementBoundaryByte takes a boundary-byte `bb`, a boundary-value `bv`
and a count, and returns the count remaining for more-significant bytes
together with the new boundary-byte value.  Go's uint128 addition wraps at
`2 ^ 128`; `byte(count.Lo)` and `rb[15]` are `% 256`. -/
def incrementBoundaryByte (bb bv count : Nat) : Nat × Nat :=
  if count = 0 then (count, bv)
  else
    let byteMax := 256 - bb
    let c := (count + bv) % 2 ^ 128
    if c < byteMax then (0, c % 256)
    else (c / byteMax, c % byteMax % 256)

/-- incrementUnmaskedBytes treats `nb` as a big-endian integer, adds count
(uint128, wrapping at `2 ^ 128`), re-encodes into 16 bytes and keeps the
last `nb.length` of them. -/
def incrementUnmaskedBytes (nb : List Nat) (count : Nat) : List Nat :=
  if count = 0 then nb
  else (natToBytes 16 ((bytesToNat nb + count) % 2 ^ 128)).drop (16 - nb.length)

/-- decrementBoundaryByte: divide count by the boundary byte's maximum;
borrow from the more-significant bytes when the remainder exceeds the
current value. -/
def decrementBoundaryByte (bb bv count : Nat) : Nat × Nat :=
  if count = 0 then (count, bv)
  else
    let byteMax := 256 - bb
    let q := count / byteMax
    let m := count % byteMax
    let bmod := m % 256
    if bv < bmod then ((q + 1) % 2 ^ 128, (bv + byteMax - m) % 256)
    else (q, bv - bmod)

/-- decrementUnmaskedBytes: subtract count from the big-endian value of
`nb`; an empty list signals underflow. -/
def decrementUnmaskedBytes (nb : List Nat) (count : Nat) : List Nat :=
  if count = 0 then nb
  else
    let n := bytesToNat nb
    if n < count then []
    else (natToBytes 16 (n - count)).drop (16 - nb.length)

/-- BigintToIP6 converts a big integer to a 16-byte address, clamping to
all-ones above the address space and to all-zeroes at or below zero. -/
def BigintToIP6 (z : Int) : List Nat :=
  if 2 ^ 128 ≤ z.natAbs then List.replicate 16 255
  else if z ≤ 0 then List.replicate 16 0
  else natToBytes 16 z.toNat

/-- IncrementIP6By adds count to the address value (iplib.go). -/
def IncrementIP6By (ip : List Nat) (count : Nat) : List Nat :=
  BigintToIP6 ((bytesToNat ip : Int) + count)

/-- DecrementIP6By subtracts count from the address value (iplib.go). -/
def DecrementIP6By (ip : List Nat) (count : Nat) : List Nat :=
  BigintToIP6 ((bytesToNat ip : Int) - count)

/-- IncrementIP6WithinHostmask returns an address greater than the unmasked
portion of `ip` by `count`.  The final comparison models
`CompareIPs(xip, ip) < 0` (big-endian value order of equal-length byte
strings). -/
def IncrementIP6WithinHostmask (ip hm : List Nat) (count : Nat) : Res (List Nat) :=
  let bb := (BoundaryByte hm).1
  let bbpos := (BoundaryByte hm).2
  if bbpos = 0 then .err .badMaskLength
  else if bbpos = -1 then .ok (IncrementIP6By ip count)
  else
    let p := bbpos.toNat
    if (ip.drop (p + 1)).any (fun b => 0 < b) then .err .addressOutOfRange
    else
      let r := incrementBoundaryByte bb (ip.getD p 0) count
      let xip := incrementUnmaskedBytes (ip.take p) r.1
      if p < xip.length then .err .addressOutOfRange
      else
        let xip2 := xip ++ r.2 :: List.replicate (15 - p) 0
        if bytesToNat xip2 < bytesToNat ip then .err .addressOutOfRange
        else .ok xip2

/-- DecrementIP6WithinHostmask returns an address smaller than the unmasked
portion of `ip` by `count`; `ip[bbpos]+bb < bb` is a byte-overflow test,
modelled as `(bv + bb) % 256 < bb`. -/
def DecrementIP6WithinHostmask (ip hm : List Nat) (count : Nat) : Res (List Nat) :=
  let bb := (BoundaryByte hm).1
  let bbpos := (BoundaryByte hm).2
  if bbpos = 0 then .err .badMaskLength
  else if bbpos = -1 then .ok (DecrementIP6By ip count)
  else
    let p := bbpos.toNat
    if p < 15 ∧ ((ip.drop (p + 1)).any (fun b => 0 < b) ∨ (ip.getD p 0 + bb) % 256 < bb)
      then .err .addressOutOfRange
    else
      let r := decrementBoundaryByte bb (ip.getD p 0) count
      let xip := decrementUnmaskedBytes (ip.take p) r.1
      if xip.length = 0 then .err .addressOutOfRange
      else if p < xip.length then .err .addressOutOfRange
      else .ok (xip ++ r.2 :: List.replicate (15 - p) 0)

/-! ## Next and Previous within a hostmask (hostmask.go)

The Go loops scan the 16 bytes from index 15 (least significant) down to 0,
so they are structural recursions over the reversed byte lists. -/

/-- Scan of NextIP6WithinHostmask over little-endian (mask, address) bytes:
a fully masked byte must be zero; a byte at the maximum of its unmasked bits
resets to zero and carries; otherwise the byte is incremented and the scan
stops.  `none` is ErrAddressOutOfRange (bits inside the mask, or block
exhausted). -/
def nextLE : List Nat → List Nat → Option (List Nat)
  | m :: ms, x :: xs =>
    if m = 255 then
      if 0 < x then none else (nextLE ms xs).map (fun r => x :: r)
    else if x ||| m = 255 then (nextLE ms xs).map (fun r => 0 :: r)
    else
      let x2 := (x + 1) % 256
      if 0 < x2 then some (x2 :: xs) else (nextLE ms xs).map (fun r => x2 :: r)
  | _, _ => none

/-- NextIP6WithinHostmask increments ip by one within the hostmask. -/
def NextIP6WithinHostmask (ip hm : List Nat) : Res (List Nat) :=
  match nextLE hm.reverse ip.reverse with
  | none => .err .addressOutOfRange
  | some r => .ok r.reverse

/-- Scan of PreviousIP6WithinHostmask over little-endian bytes carrying the
big-endian index `i` (15 at the head).  The returned flag records that the
successful decrement happened at the child's level, so that the byte one
position above it — and only that byte — is rewritten to `bbmax` when it is
the boundary byte (`i == bbpos-1` in the Go source, checked here at the
parent as `i = bbpos`). -/
def prevLE (bbpos : Int) (bbmax : Nat) : List Nat → List Nat → Int → Option (List Nat × Bool)
  | m :: ms, x :: xs, i =>
    if m = 255 then
      if 0 < x then none
      else (prevLE bbpos bbmax ms xs (i - 1)).map
        (fun r => ((if r.2 ∧ i = bbpos then bbmax else x) :: r.1, false))
    else
      let x2 := (x + 255) % 256
      if x2 ≠ 255 then some (x2 :: xs, true)
      else (prevLE bbpos bbmax ms xs (i - 1)).map
        (fun r => ((if r.2 ∧ i = bbpos then bbmax else x2) :: r.1, false))
  | _, _, _ => none

/-- PreviousIP6WithinHostmask decrements ip by one within the hostmask. -/
def PreviousIP6WithinHostmask (ip hm : List Nat) : Res (List Nat) :=
  let bb := (BoundaryByte hm).1
  let bbpos := (BoundaryByte hm).2
  let bbmax := 255 - bb
  match prevLE bbpos bbmax hm.reverse ip.reverse 15 with
  | none => .err .addressOutOfRange
  | some r => .ok r.1.reverse

/-! ## The legacy Net block type (second document of iplib.go)

The legacy `Net` combines a base address and a prefix length; the arithmetic
of `Enumerate` is IPv4 (uint32) arithmetic, so the struct here is the
version-4 instance: `base` is the pre-masked 32-bit network address (the
`NewNet` constructor applies the mask) and `masklen` the prefix length,
0 ≤ masklen ≤ 32.  `Count6` is kept separate with an explicit version
argument since it also serves 128-bit blocks. -/

structure Net where
  base : Nat
  masklen : Nat
  deriving DecidableEq, Repr

/-- Clearing the low `32 - masklen` bits of a 32-bit value
(`ip.Mask(net.CIDRMask(masklen, 32))`). -/
def mask4 (masklen v : Nat) : Nat := v / 2 ^ (32 - masklen) * 2 ^ (32 - masklen)

/-- NewNet for the 32-bit family: the base address is pre-masked. -/
def NewNet (ip masklen : Nat) : Net := ⟨mask4 masklen ip, masklen⟩

/-- NextIP on a 4-byte address: increment by one; the all-ones address does
not wrap. -/
def nextIP4 (v : Nat) : Nat := if v + 1 < 2 ^ 32 then v + 1 else v

/-- Wildcard mask value: complement of the netmask. -/
def Wildcard (n : Net) : Nat := 2 ^ (32 - n.masklen) - 1

/-- finalAddress adds the wildcard to the base byte-by-byte; since the base
is pre-masked no byte carries, and the byte-wise sum equals the value sum. -/
def finalAddress (n : Net) : Nat := n.base + Wildcard n

/-- BroadcastAddress returns the last address of the block. -/
def BroadcastAddress (n : Net) : Nat := finalAddress n

/-- NetworkAddress returns the masked base address. -/
def NetworkAddress (n : Net) : Nat := n.base

/-- FirstAddress: the base for /31 and /32 (`i+2 > j`), otherwise the base
plus one (`NextIP(n.IP)`). -/
def FirstAddress (n : Net) : Nat :=
  if 32 < n.masklen + 2 then n.base else nextIP4 n.base

/-- Count4, on the prefix length (the only field it reads): 0 for one host
bit (/31), 1 for none (/32), otherwise `2^hostbits - 2` usable addresses.
`uint32(math.Pow(2, 32))` on masklen 0 truncates through int64 to 0, so the
subtraction wraps: hence the explicit `% 2 ^ 32`, which is the identity for
masklen ≥ 1. -/
def Count4 (masklen : Nat) : Nat :=
  let exp := 32 - masklen
  if exp = 1 then 0
  else if exp = 0 then 1
  else (2 ^ exp - 2) % 2 ^ 32

/-- Count6, on the version (4 or 6) and prefix length; exact big.Int
arithmetic in the source. -/
def Count6 (version masklen : Nat) : Nat :=
  let all := if version = 4 then 32 else 128
  let exp := all - masklen
  if exp = 1 then 0
  else if exp = 0 then 1
  else if version = 6 then 2 ^ exp
  else 2 ^ exp - 2

/-- Count for a version-4 legacy Net routes to Count4. -/
def Count (n : Net) : Nat := Count4 n.masklen

/-- The address list built by Enumerate's loop: `addrList[0] = netu` and
`addrList[i] = NextIP(addrList[i-1])`. -/
def buildList (s : Nat) : Nat → List Nat
  | 0 => []
  | k + 1 => s :: buildList (nextIP4 s) k

/-- Enumerate over a version-4 legacy Net.  `none` models the Go panic of
writing `addrList[0]` on a zero-length slice, which happens exactly when the
adjusted size is zero and neither edge-case branch applies. -/
def Enumerate (n : Net) (size offset : Nat) : Option (List Nat) :=
  let count := Count n
  if count < offset then some []
  else
    let size2 := if count - offset < size ∨ size = 0 then count - offset else size
    if count = 1 then some [n.base]
    else if count = 0 then some (List.drop offset [NetworkAddress n, BroadcastAddress n])
    else
      let netu := (FirstAddress n + offset) % 2 ^ 32
      if size2 = 0 then none
      else some (buildList netu size2)

/-- The Subnet loop: keep advancing a block of prefix `m2` while its
broadcast address is below the target broadcast.  Fuel-based; `2 ^ 32` steps
are always enough for well-formed inputs (proved in the Subnet
characterization below). -/
def subnetLoop (m2 target : Nat) : Nat → Nat → List Net
  | cur, 0 => [⟨cur, m2⟩]
  | cur, fuel + 1 =>
    let bc := cur + (2 ^ (32 - m2) - 1)
    if bc < target then ⟨cur, m2⟩ :: subnetLoop m2 target (nextIP4 bc) fuel
    else [⟨cur, m2⟩]

/-- Subnet carves the block into blocks of the given prefix length; a
requested prefix of zero is replaced by the current prefix plus one (after
the shorter-prefix rejection). -/
def Subnet (n : Net) (masklen : Nat) : Res (List Net) :=
  if masklen < n.masklen then .err .badMaskLength
  else
    let m2 := if masklen = 0 then n.masklen + 1 else masklen
    .ok (subnetLoop m2 (BroadcastAddress n) n.base (2 ^ 32))

/-- Supernet re-masks the base at the requested prefix; a requested prefix
of zero is replaced by the current prefix minus one, and for a /0 block that
is -1, which makes `net.CIDRMask` return a nil mask: that degenerate block
is modelled as `none`. -/
def Supernet (n : Net) (masklen : Nat) : Res (Option Net) :=
  if n.masklen < masklen then .err .badMaskLength
  else
    let m2 : Int := if masklen = 0 then (n.masklen : Int) - 1 else masklen
    if m2 < 0 then .ok none
    else .ok (some ⟨mask4 m2.toNat n.base, m2.toNat⟩)

example : Count4 24 = 254 := by decide
example : Count4 31 = 0 := by decide
example : Count4 32 = 1 := by decide
example : Count6 6 64 = 2 ^ 64 := by decide
example : Count6 6 127 = 0 := by decide
example : Enumerate (NewNet 0xC0A80000 30) 0 0 = some [0xC0A80001, 0xC0A80002] := by decide
example : Enumerate (NewNet 0xC0A80000 31) 0 0 = some [0xC0A80000, 0xC0A80001] := by decide
example : Enumerate (NewNet 0xC0A80000 32) 0 0 = some [0xC0A80000] := by decide

example : Subnet (NewNet 0xC0A80000 24) 26 =
    .ok [⟨0xC0A80000, 26⟩, ⟨0xC0A80040, 26⟩, ⟨0xC0A80080, 26⟩, ⟨0xC0A800C0, 26⟩] := by decide
example : Enumerate (NewNet 0xC0A80000 22) 128 20 =
    some (buildList 0xC0A80015 128) := by decide

/-! ## Range fitting (net.go)

`fitNetworkBetween` and `AllNetsBetween` work through the `Net` interface,
whose 32-bit and 128-bit implementations (net4.go / net6.go) are not among
the sources; only their behaviour on the operations used here is needed.
Addresses are `(w, v)` pairs: width in bits (32 or 128) and value. -/

/-- Modelled from the spec: the missing NewNet4/NewNet6 constructors
pre-mask the base address to the netmask ("base = base & netmask", §3), so
the network address of `NewNet(a, mask)` clears the low `w - mask` bits. -/
def netBase (w mask v : Nat) : Nat := v / 2 ^ (w - mask) * 2 ^ (w - mask)

/-- Modelled from the spec: the missing finalAddress implementations fill
the host bits of the base with ones (netmask wildcard; the Net6 hostmask is
zero here since net.go constructs `NewNet6(ip, masklen, 0)`). -/
def netFinal (w mask v : Nat) : Nat := netBase w mask v + (2 ^ (w - mask) - 1)

/-- To16 value of a tagged address: a 32-bit value maps to the RFC4291
IPv4-mapped range `::ffff:a/96`, which is how `CompareIPs` compares mixed
inputs (`bytes.Compare(a.To16(), b.To16())`). -/
def to16val (a : Nat × Nat) : Nat := if a.1 = 32 then 0xffff * 2 ^ 32 + a.2 else a.2

/-- EffectiveVersion of a tagged address (4-in-6 encodings are out of scope:
a 32-bit tag is version 4, a 128-bit tag version 6). -/
def EffectiveVersion (a : Nat × Nat) : Nat := if a.1 = 32 then 4 else 6

/-- One recursion layer of fitNetworkBetween, structurally recursive on the
remaining prefix lengths `w + 1 - mask`: when that count is zero the prefix
has exceeded the address width (unreachable, per the termination theorem
below). -/
def fitAux (w a b : Nat) : Nat → Nat → Option (Nat × Nat × Bool)
  | _, 0 => none
  | mask, fuel + 1 =>
    let base := netBase w mask a
    let final := netFinal w mask a
    if b < a then some (b, b, true)
    else if base = a ∧ final = b then some (base, final, true)
    else if a ≤ base ∧ final ≤ b then some (base, final, false)
    else fitAux w a b (mask + 1) fuel

/-- fitNetworkBetween: starting from the given prefix length, grow the
prefix until the candidate block containing `a` starts at-or-after `a` and
ends at-or-before `b`.  The result is the block's (network address, final
address, exact). -/
def fitNetworkBetween (w a b mask : Nat) : Option (Nat × Nat × Bool) :=
  fitAux w a b mask (w + 1 - mask)

/-- NewNetBetween checks `a ≤ b` and equal effective versions, then fits;
the outer Option is the (unreachable) fit fallthrough. -/
def NewNetBetween (a b : Nat × Nat) : Option (Res (Nat × Nat × Bool)) :=
  if to16val b < to16val a then some (.err .noValidRange)
  else if EffectiveVersion a ≠ EffectiveVersion b then some (.err .noValidRange)
  else (fitNetworkBetween a.1 a.2 b.2 1).map .ok

/-- NextIP on a `w`-bit address: increment by one, the all-ones address does
not wrap. -/
def nextIPw (w v : Nat) : Nat := if v + 1 < 2 ^ w then v + 1 else v

/-- The AllNetsBetween loop on same-width values: repeatedly fit a block
into the remaining span, stop on an exact fit, on overshoot, on
non-increasing starts, or when the advanced start passes `b`.  Fuel-based;
the termination theorem shows `b + 2` steps always suffice.  Accumulated
blocks are (network address, final address) pairs. -/
def allNetsLoop (w bval : Nat) : Nat → Option Nat → List (Nat × Nat) → Nat → Option (List (Nat × Nat))
  | _, _, _, 0 => none
  | aval, lastIP, acc, fuel + 1 =>
    if bval < aval then some acc
    else match fitNetworkBetween w aval bval 1 with
      | none => none
      | some (base, final, tf) =>
        let acc2 := acc ++ [(base, final)]
        if tf then some acc2
        else if bval < final then some acc2
        else
          let progress := match lastIP with
            | none => true
            | some l => decide (l < base)
          if progress then
            let a2 := nextIPw w final
            if bval < a2 then some acc2
            else allNetsLoop w bval a2 (some base) acc2 fuel
          else some acc2

/-- AllNetsBetween: returns the empty list when the first NewNetBetween
call fails on mismatched versions, otherwise runs the loop on the values. -/
def AllNetsBetween (a b : Nat × Nat) (fuel : Nat) : Option (List (Nat × Nat)) :=
  if EffectiveVersion a ≠ EffectiveVersion b then some []
  else allNetsLoop a.1 b.2 a.2 none [] fuel

example : fitNetworkBetween 32 0xC0A80100 0xC0A80200 1 =
    some (0xC0A80100, 0xC0A801FF, false) := by decide
example : fitNetworkBetween 32 0xC0A800FF 0xC0A800FF 1 =
    some (0xC0A800FF, 0xC0A800FF, true) := by decide

/-! ## Claim theorems -/

/-- C10: for every legacy Net with prefix length at least 1, Subnet(0)
returns ErrBadMaskLength, because the shorter-prefix rejection runs before
the zero-argument substitution; the documented carve-in-half behaviour of
Subnet(0) is reachable only at prefix length 0. -/
theorem subnet_zero_rejected (n : Net) (h : 1 ≤ n.masklen) :
    Subnet n 0 = .err .badMaskLength := by
  unfold Subnet
  rw [if_pos (by omega : 0 < n.masklen)]

theorem subnet_zero_rejected_witness :
    Subnet (NewNet 0xC0A80100 24) 0 = .err .badMaskLength :=
  subnet_zero_rejected _ (by decide)

/-- C9: for every hostmask of length 121 through 128 (boundary byte at
position 0), IncrementIP6WithinHostmask and DecrementIP6WithinHostmask
return ErrBadMaskLength (with an empty address) for every input address and
every count, before any arithmetic. -/
theorem hostmask_boundary_zero_badMaskLength (hmlen : Nat)
    (h1 : 121 ≤ hmlen) (h2 : hmlen ≤ 128) (ip : List Nat) (c : Nat) :
    IncrementIP6WithinHostmask ip (NewHostMask hmlen) c = .err .badMaskLength ∧
    DecrementIP6WithinHostmask ip (NewHostMask hmlen) c = .err .badMaskLength := by
  have hb : (BoundaryByte (NewHostMask hmlen)).2 = 0 := by
    interval_cases hmlen <;> decide
  constructor
  · unfold IncrementIP6WithinHostmask
    rw [hb]
    simp
  · unfold DecrementIP6WithinHostmask
    rw [hb]
    simp

theorem hostmask_boundary_zero_badMaskLength_witness :
    IncrementIP6WithinHostmask (List.replicate 16 0) (NewHostMask 124) 5 = .err .badMaskLength ∧
    DecrementIP6WithinHostmask (List.replicate 16 0) (NewHostMask 124) 5 = .err .badMaskLength :=
  hostmask_boundary_zero_badMaskLength 124 (by decide) (by decide) (List.replicate 16 0) 5

/-- C2 counterexample: a one-host-bit block does not report 2 usable
addresses: Count4 on a /31 is 0, and Count6 on a v6 /127 is 0 as well. -/
theorem count_one_host_bit_counterexample :
    Count4 31 = 0 ∧ Count4 31 ≠ 2 ∧ Count6 6 127 = 0 ∧ Count6 6 127 ≠ 2 := by decide

/-- C2 (amended): a v4 block with at least two host bits counts its range
size minus the network and broadcast addresses (2^hostBits - 2); a v6 block
counts its full range size 2^hostBits; a one-host-bit block (/31, /127)
reports 0 (not 2); a zero-host-bit block reports 1; no hostmask bits are
subtracted (the legacy Net carries no hostmask). -/
theorem count_characterization (m : Nat) (hm : m ≤ 32) (m6 : Nat) (hm6 : m6 ≤ 128)
    (v u : Nat) :
    (2 ≤ 32 - m → Count4 m = (netFinal 32 m v - netBase 32 m v + 1) - 2) ∧
    (32 - m = 1 → Count4 m = 0) ∧
    (32 - m = 0 → Count4 m = 1) ∧
    (2 ≤ 128 - m6 → Count6 6 m6 = netFinal 128 m6 u - netBase 128 m6 u + 1) ∧
    (128 - m6 = 1 → Count6 6 m6 = 0) ∧
    (128 - m6 = 0 → Count6 6 m6 = 1) := by
  have hrange4 : netFinal 32 m v - netBase 32 m v + 1 = 2 ^ (32 - m) := by
    unfold netFinal netBase
    have : 1 ≤ 2 ^ (32 - m) := Nat.one_le_two_pow
    omega
  have hrange6 : netFinal 128 m6 u - netBase 128 m6 u + 1 = 2 ^ (128 - m6) := by
    unfold netFinal netBase
    have : 1 ≤ 2 ^ (128 - m6) := Nat.one_le_two_pow
    omega
  refine ⟨?_, ?_, ?_, ?_, ?_, ?_⟩
  · intro h
    rw [hrange4]
    unfold Count4
    have h32 : 2 ^ (32 - m) ≤ 2 ^ 32 := Nat.pow_le_pow_right (by norm_num) (by omega)
    have h2 : 2 ≤ 2 ^ (32 - m) := by
      calc 2 = 2 ^ 1 := by norm_num
        _ ≤ 2 ^ (32 - m) := Nat.pow_le_pow_right (by norm_num) (by omega)
    simp only [show 32 - m ≠ 1 by omega, show 32 - m ≠ 0 by omega, if_false]
    rw [Nat.mod_eq_of_lt (by omega)]
  · intro h; unfold Count4; rw [if_pos h]
  · intro h; unfold Count4; rw [if_neg (by omega), if_pos h]
  · intro h
    rw [hrange6]
    unfold Count6
    simp only [show (6:Nat) ≠ 4 by decide, if_false, if_true]
    rw [if_neg (by omega : ¬ 128 - m6 = 1), if_neg (by omega : ¬ 128 - m6 = 0)]
  · intro h; unfold Count6; simp only [show (6:Nat) ≠ 4 by decide, if_false]
    rw [if_pos h]
  · intro h; unfold Count6; simp only [show (6:Nat) ≠ 4 by decide, if_false]
    rw [if_neg (by omega), if_pos h]

theorem count_characterization_witness :
    Count4 24 = (netFinal 32 24 0xC0A80107 - netBase 32 24 0xC0A80107 + 1) - 2 ∧
    Count6 6 64 = netFinal 128 64 77 - netBase 128 64 77 + 1 :=
  ⟨(count_characterization 24 (by decide) 64 (by decide) 0xC0A80107 77).1 (by decide),
   (count_characterization 24 (by decide) 64 (by decide) 77 77).2.2.2.1 (by decide)⟩

/-- C4: on every v4 block whose Count is at least 2, Enumerate called with
offset exactly Count does not return: the strict `offset > count` guard lets
it through, the size is clamped to 0, and the code writes index 0 of an
empty slice — a panic, modelled as `none`. -/
theorem enumerate_offset_eq_count_panics (n : Net) (size : Nat) (h : 2 ≤ Count n) :
    Enumerate n size (Count n) = none := by
  unfold Enumerate
  rw [if_neg (lt_irrefl (Count n))]
  rw [if_pos (by omega : Count n - Count n < size ∨ size = 0)]
  rw [if_neg (by omega : ¬ Count n = 1), if_neg (by omega : ¬ Count n = 0)]
  rw [if_pos (by omega : Count n - Count n = 0)]

theorem enumerate_offset_eq_count_panics_witness :
    2 ≤ Count (NewNet 0xC0A80100 24) ∧
    Enumerate (NewNet 0xC0A80100 24) 0 (Count (NewNet 0xC0A80100 24)) = none :=
  ⟨by decide, enumerate_offset_eq_count_panics _ 0 (by decide)⟩

/-- C3 counterexample: on a /31 block, Enumerate(0,0) yields two addresses
while Count reports 0, so `len(Enumerate(block,0,0)) == Count(block)` fails
at the RFC3021 edge case. -/
theorem enumerate_count_mismatch_counterexample :
    Enumerate (NewNet 0xC0A80100 31) 0 0 = some [0xC0A80100, 0xC0A80101] ∧
    Count (NewNet 0xC0A80100 31) = 0 := by decide

/-- C8 counterexample: Supernet at a requested prefix of 0 does not re-mask
at that prefix: on 192.168.1.0/24 it produces the /23 block (the zero
argument is replaced by the current prefix minus one), not the /0 block. -/
theorem supernet_zero_counterexample :
    Supernet (NewNet 0xC0A80100 24) 0 = .ok (some ⟨0xC0A80000, 23⟩) ∧
    (⟨0xC0A80000, 23⟩ : Net) ≠ ⟨mask4 0 0xC0A80100, 0⟩ := by decide

/-- C1 counterexample: with hostmask /60 the unmasked region holds
`2^(8*8) * 16 = 2^68` values; incrementing the all-zero address by exactly
that capacity overflows the region, yet the result wraps back to the input
address and is returned with no error, where the claim requires
ErrAddressOutOfRange. -/
theorem increment_capacity_wrap_counterexample :
    2 ^ (8 * 8) * (256 - (BoundaryByte (NewHostMask 60)).1) = 2 ^ 68 ∧
    IncrementIP6WithinHostmask (List.replicate 16 0) (NewHostMask 60) (2 ^ 68) =
      .ok (List.replicate 16 0) := by decide

/-- C6: PreviousIP6WithinHostmask is not the inverse of
NextIP6WithinHostmask on the valid address ::ff:f00:0:0:0 under hostmask
/60: the increment carries two bytes past the boundary byte, and the
decrement's borrow then restores the boundary byte to 0xff instead of its
in-mask maximum 0x0f, returning ::ff:ff00:0:0:0 — an address with bits set
inside the hostmask, which the function's own contract excludes. -/
theorem previous_next_roundtrip_failure :
    NextIP6WithinHostmask [0, 0, 0, 0, 0, 0, 0, 255, 15, 0, 0, 0, 0, 0, 0, 0]
        (NewHostMask 60) =
      .ok [0, 0, 0, 0, 0, 0, 1, 0, 0, 0, 0, 0, 0, 0, 0, 0] ∧
    PreviousIP6WithinHostmask [0, 0, 0, 0, 0, 0, 1, 0, 0, 0, 0, 0, 0, 0, 0, 0]
        (NewHostMask 60) =
      .ok [0, 0, 0, 0, 0, 0, 0, 255, 255, 0, 0, 0, 0, 0, 0, 0] ∧
    [0, 0, 0, 0, 0, 0, 0, 255, 255, 0, 0, 0, 0, 0, 0, 0] ≠
      [0, 0, 0, 0, 0, 0, 0, 255, 15, 0, 0, 0, 0, 0, 0, 0] := by decide


/-- A base address aligned to its block size leaves room for the whole
block below the top of the address space. -/
theorem aligned_bound (m b : Nat) (hm : m ≤ 32) (hb : b < 2 ^ 32)
    (ha : b % 2 ^ (32 - m) = 0) : b + 2 ^ (32 - m) ≤ 2 ^ 32 := by
  obtain ⟨q, hq⟩ := Nat.dvd_of_mod_eq_zero ha
  have hpow : 2 ^ (32 - m) * 2 ^ m = 2 ^ 32 := by
    rw [← pow_add]
    congr 1
    omega
  have hq2 : q < 2 ^ m := by
    by_contra hcon
    push_neg at hcon
    have : 2 ^ 32 ≤ b := by
      calc 2 ^ 32 = 2 ^ (32 - m) * 2 ^ m := hpow.symm
        _ ≤ 2 ^ (32 - m) * q := Nat.mul_le_mul_left _ hcon
        _ = b := hq.symm
    omega
  calc b + 2 ^ (32 - m) = 2 ^ (32 - m) * (q + 1) := by rw [hq]; ring
    _ ≤ 2 ^ (32 - m) * 2 ^ m := Nat.mul_le_mul_left _ (by omega)
    _ = 2 ^ 32 := hpow

/-- Count4 below /31 is the plain usable-address formula. -/
theorem count4_eq (m : Nat) (h : m ≤ 30) : Count4 m = 2 ^ (32 - m) - 2 := by
  unfold Count4
  have h1 : 2 ^ (32 - m) ≤ 2 ^ 32 := Nat.pow_le_pow_right (by norm_num) (by omega)
  have h2 : 4 ≤ 2 ^ (32 - m) := by
    calc (4:Nat) = 2 ^ 2 := by norm_num
      _ ≤ 2 ^ (32 - m) := Nat.pow_le_pow_right (by norm_num) (by omega)
  rw [if_neg (by omega), if_neg (by omega), Nat.mod_eq_of_lt (by omega)]

/-- Two host bits or more means a prefix of at most 30. -/
theorem count4_ge_two (m : Nat) (hm : m ≤ 32) (h : 2 ≤ Count4 m) : m ≤ 30 := by
  by_contra hcon
  push_neg at hcon
  interval_cases m <;> simp [Count4] at h

/-- Prepending the start element to a shifted progression. -/
theorem map_add_range_succ (s k : Nat) :
    List.map (fun i => s + i) (List.range (k + 1)) =
      s :: List.map (fun i => s + 1 + i) (List.range k) := by
  rw [List.range_succ_eq_map, List.map_cons, List.map_map]
  congr 1
  apply List.map_congr_left
  intro a ha
  simp [Function.comp, Nat.succ_eq_add_one]
  omega

/-- The Enumerate loop is an arithmetic progression while it stays below
the all-ones address. -/
theorem buildList_eq_map (k : Nat) : ∀ s : Nat, s + k ≤ 2 ^ 32 →
    buildList s k = List.map (fun i => s + i) (List.range k) := by
  induction k with
  | zero => intro s _; rfl
  | succ k ih =>
      intro s hs
      rw [map_add_range_succ s k, buildList]
      congr 1
      cases k with
      | zero => rfl
      | succ k2 =>
          have hlt : s + 1 < 2 ^ 32 := by omega
          have hnext : nextIP4 s = s + 1 := by unfold nextIP4; rw [if_pos hlt]
          rw [hnext]
          exact ih (s + 1) (by omega)

/-- C3 (amended): for a v4 block with at least two host bits and
offset < Count(), Enumerate yields min(size, Count() - offset) addresses
starting at FirstAddress() + offset (the whole remaining range when
size == 0), and offset > Count() yields an empty sequence; but
offset == Count() panics instead of returning (cf. C4), a one-host-bit /31
block enumerates its 2 addresses while Count() is 0, and a /32 yields its
single address for offset 0 and 1 alike. -/
theorem enumerate_characterization (b m size offset : Nat)
    (hm1 : 1 ≤ m) (hm : m ≤ 32) (hb : b < 2 ^ 32) (halign : b % 2 ^ (32 - m) = 0) :
    (Count4 m < offset → Enumerate ⟨b, m⟩ size offset = some []) ∧
    (2 ≤ Count4 m → offset = Count4 m → Enumerate ⟨b, m⟩ size offset = none) ∧
    (2 ≤ Count4 m → offset < Count4 m →
      Enumerate ⟨b, m⟩ size offset =
        some (List.map (fun i => b + 1 + offset + i)
          (List.range (if Count4 m - offset < size ∨ size = 0
                       then Count4 m - offset else size)))) ∧
    (m = 31 → Enumerate ⟨b, m⟩ size 0 = some [b, b + 1]) ∧
    (m = 32 → offset ≤ 1 → Enumerate ⟨b, m⟩ size offset = some [b]) := by
  refine ⟨?_, ?_, ?_, ?_, ?_⟩
  · intro h
    simp only [Enumerate, Count]
    rw [if_pos h]
  · intro h2 heq
    simp only [Enumerate, Count]
    rw [if_neg (show ¬ Count4 m < offset by omega)]
    rw [if_pos (show Count4 m - offset < size ∨ size = 0 by omega)]
    rw [if_neg (show ¬ Count4 m = 1 by omega)]
    rw [if_neg (show ¬ Count4 m = 0 by omega)]
    rw [if_pos (show Count4 m - offset = 0 by omega)]
  · intro h2 hoff
    have hm30 : m ≤ 30 := count4_ge_two m hm h2
    have hc : Count4 m = 2 ^ (32 - m) - 2 := count4_eq m hm30
    have hroom : b + 2 ^ (32 - m) ≤ 2 ^ 32 := aligned_bound m b hm hb halign
    have h4 : 4 ≤ 2 ^ (32 - m) := by
      calc (4:Nat) = 2 ^ 2 := by norm_num
        _ ≤ 2 ^ (32 - m) := Nat.pow_le_pow_right (by norm_num) (by omega)
    simp only [Enumerate, Count, FirstAddress]
    rw [if_neg (show ¬ Count4 m < offset by omega)]
    rw [if_neg (show ¬ Count4 m = 1 by omega)]
    rw [if_neg (show ¬ Count4 m = 0 by omega)]
    rw [if_neg (show ¬ 32 < m + 2 by omega)]
    rw [show nextIP4 b = b + 1 by unfold nextIP4; rw [if_pos (by omega)]]
    rw [show (b + 1 + offset) % 2 ^ 32 = b + 1 + offset from Nat.mod_eq_of_lt (by omega)]
    by_cases hcond : Count4 m - offset < size ∨ size = 0
    · rw [if_pos hcond]
      rw [if_neg (show ¬ Count4 m - offset = 0 by omega)]
      rw [buildList_eq_map _ (b + 1 + offset) (by omega)]
    · rw [if_neg hcond]
      push_neg at hcond
      rw [if_neg (show ¬ size = 0 from hcond.2)]
      have hle : size ≤ Count4 m - offset := hcond.1
      rw [buildList_eq_map _ (b + 1 + offset) (by omega)]
  · intro h31
    subst h31
    have hC : Count4 31 = 0 := rfl
    simp only [Enumerate, Count]
    rw [if_neg (show ¬ Count4 31 < 0 by omega)]
    rw [if_pos (show Count4 31 - 0 < size ∨ size = 0 by omega)]
    rw [if_neg (show ¬ Count4 31 = 1 by omega)]
    rw [if_pos hC]
    simp only [NetworkAddress, BroadcastAddress, finalAddress, Wildcard, List.drop]
    norm_num
  · intro h32 hoff
    subst h32
    have hC : Count4 32 = 1 := rfl
    simp only [Enumerate, Count]
    rw [if_neg (show ¬ Count4 32 < offset by omega)]
    rw [if_pos hC]

theorem enumerate_characterization_witness :
    Enumerate ⟨0xC0A80000, 24⟩ 0 0 =
      some (List.map (fun i => 0xC0A80000 + 1 + 0 + i)
        (List.range (if Count4 24 - 0 < 0 ∨ (0:Nat) = 0 then Count4 24 - 0 else 0))) ∧
    Enumerate ⟨0xC0A80000, 31⟩ 9 0 = some [0xC0A80000, 0xC0A80000 + 1] :=
  ⟨(enumerate_characterization 0xC0A80000 24 0 0 (by decide) (by decide) (by decide)
      (by decide)).2.2.1 (by decide) (by decide),
   (enumerate_characterization 0xC0A80000 31 9 0 (by decide) (by decide) (by decide)
      (by decide)).2.2.2.1 (by decide)⟩

/-- C8 helper: prepend the first block to a shifted block progression. -/
theorem map_add_range_succ_net (start step m2 k : Nat) :
    List.map (fun j => (⟨start + j * step, m2⟩ : Net)) (List.range (k + 1)) =
      (⟨start, m2⟩ : Net) ::
        List.map (fun j => (⟨start + step + j * step, m2⟩ : Net)) (List.range k) := by
  rw [List.range_succ_eq_map, List.map_cons, List.map_map]
  simp only [Nat.zero_mul, Nat.add_zero]
  congr 1
  apply List.map_congr_left
  intro a ha
  simp only [Function.comp, Nat.succ_eq_add_one]
  congr 1
  ring

/-- The Subnet loop produces consecutive blocks of the requested size until
the target broadcast address is reached. -/
theorem subnetLoop_progression (m2 : Nat) :
    ∀ (kcnt : Nat), 1 ≤ kcnt → ∀ (fuel start : Nat), kcnt ≤ fuel →
      start + kcnt * 2 ^ (32 - m2) ≤ 2 ^ 32 →
      subnetLoop m2 (start + kcnt * 2 ^ (32 - m2) - 1) start fuel =
        List.map (fun j => (⟨start + j * 2 ^ (32 - m2), m2⟩ : Net)) (List.range kcnt) := by
  intro kcnt
  induction kcnt with
  | zero => omega
  | succ K ih =>
      intro _ fuel start hfuel hroom
      obtain ⟨f, rfl⟩ : ∃ f, fuel = f + 1 := ⟨fuel - 1, by omega⟩
      set step := 2 ^ (32 - m2) with hstep
      have hstep1 : 1 ≤ step := Nat.one_le_two_pow
      rw [subnetLoop]
      cases K with
      | zero =>
          rw [if_neg (by omega : ¬ start + (step - 1) < start + 1 * step - 1)]
          simp [List.range_succ]
      | succ K2 =>
          have hK : 1 ≤ K2 + 1 := by omega
          have hmul : (K2 + 1 + 1) * step = (K2 + 1) * step + step := by ring
          have h2s : 2 * step ≤ (K2 + 1 + 1) * step := Nat.mul_le_mul_right _ (by omega)
          have hcond : start + (step - 1) < start + (K2 + 1 + 1) * step - 1 := by omega
          rw [if_pos hcond]
          have hnext : nextIP4 (start + (step - 1)) = start + step := by
            unfold nextIP4
            rw [if_pos (by omega)]
            omega
          rw [hnext]
          have htgt : start + (K2 + 1 + 1) * step - 1 = (start + step) + (K2 + 1) * step - 1 := by
            rw [hmul]
            omega
          rw [htgt]
          rw [ih hK f (start + step) (by omega) (by rw [hmul] at hroom; omega)]
          rw [map_add_range_succ_net start step m2 (K2 + 1)]

/-- C8 (amended): Subnet fails with ErrBadMaskLength exactly when the
requested prefix is shorter than the block's, and for nonzero requested
prefixes returns the ordered list of prefixLen-sized blocks advancing from
the base address until the block's last address; Supernet fails exactly
when the requested prefix is longer, and for nonzero requested prefixes
re-masks the base at that prefix — but a requested prefix of 0 is
substituted by currentPrefix+1 in Subnet (reachable only for a /0 block,
which yields two /1 halves) and by currentPrefix-1 in Supernet (yielding
the next-larger block, or a degenerate nil-mask block from a /0). -/
theorem subnet_supernet_characterization (b p : Nat) (hp : p ≤ 32) (hb : b < 2 ^ 32)
    (halign : b % 2 ^ (32 - p) = 0) (k : Nat) (hk : k ≤ 32) :
    (k < p → Subnet ⟨b, p⟩ k = .err .badMaskLength) ∧
    (p ≤ k → 1 ≤ k →
      Subnet ⟨b, p⟩ k =
        .ok (List.map (fun j => (⟨b + j * 2 ^ (32 - k), k⟩ : Net))
          (List.range (2 ^ (k - p))))) ∧
    (p = 0 → k = 0 →
      Subnet ⟨b, p⟩ k =
        .ok (List.map (fun j => (⟨b + j * 2 ^ 31, 1⟩ : Net)) (List.range 2))) ∧
    (p < k → Supernet ⟨b, p⟩ k = .err .badMaskLength) ∧
    (1 ≤ k → k ≤ p → Supernet ⟨b, p⟩ k = .ok (some ⟨mask4 k b, k⟩)) ∧
    (1 ≤ p → Supernet ⟨b, p⟩ 0 = .ok (some ⟨mask4 (p - 1) b, p - 1⟩)) ∧
    (p = 0 → Supernet ⟨b, p⟩ 0 = .ok none) := by
  have hroom : b + 2 ^ (32 - p) ≤ 2 ^ 32 := aligned_bound p b hp hb halign
  refine ⟨?_, ?_, ?_, ?_, ?_, ?_, ?_⟩
  · intro h
    simp only [Subnet]
    rw [if_pos h]
  · intro hpk hk1
    simp only [Subnet, BroadcastAddress, finalAddress, Wildcard]
    rw [if_neg (by omega : ¬ k < p), if_neg (by omega : ¬ k = 0)]
    have hsplit : 2 ^ (32 - p) = 2 ^ (k - p) * 2 ^ (32 - k) := by
      rw [← pow_add]
      congr 1
      omega
    have hcnt1 : 1 ≤ 2 ^ (k - p) := Nat.one_le_two_pow
    have hcntfuel : 2 ^ (k - p) ≤ 2 ^ 32 := Nat.pow_le_pow_right (by norm_num) (by omega)
    have htgt : b + (2 ^ (32 - p) - 1) = b + 2 ^ (k - p) * 2 ^ (32 - k) - 1 := by
      have h1 : 1 ≤ 2 ^ (32 - p) := Nat.one_le_two_pow
      rw [hsplit] at h1 ⊢
      omega
    rw [htgt]
    rw [subnetLoop_progression k (2 ^ (k - p)) hcnt1 (2 ^ 32) b hcntfuel
      (by rw [hsplit] at hroom; omega)]
  · intro hp0 hk0
    subst hp0
    subst hk0
    have hb0 : b = 0 := by
      have h0 : b % 2 ^ 32 = 0 := by simpa using halign
      omega
    subst hb0
    decide
  · intro h
    simp only [Supernet]
    rw [if_pos h]
  · intro hk1 hkp
    simp only [Supernet]
    rw [if_neg (by omega : ¬ p < k), if_neg (by omega : ¬ k = 0)]
    rw [if_neg (by omega : ¬ (k : Int) < 0)]
    simp only [Int.toNat_natCast]
  · intro hp1
    simp only [Supernet, if_true]
    rw [if_neg (by omega : ¬ p < 0)]
    rw [if_neg (by omega : ¬ (p : Int) - 1 < 0)]
    have ht : ((p : Int) - 1).toNat = p - 1 := by omega
    rw [ht]
  · intro hp0
    subst hp0
    simp only [Supernet, if_true]
    rw [if_neg (by omega : ¬ (0:Nat) < 0)]
    rw [if_pos (by omega : ((0:Nat) : Int) - 1 < 0)]

theorem subnet_supernet_characterization_witness :
    Subnet ⟨0xC0A80100, 24⟩ 26 =
      .ok (List.map (fun j => (⟨0xC0A80100 + j * 2 ^ (32 - 26), 26⟩ : Net))
        (List.range (2 ^ (26 - 24)))) ∧
    Supernet ⟨0xC0A80100, 24⟩ 22 = .ok (some ⟨mask4 22 0xC0A80100, 22⟩) :=
  ⟨(subnet_supernet_characterization 0xC0A80100 24 (by decide) (by decide) (by decide)
      26 (by decide)).2.1 (by decide) (by decide),
   (subnet_supernet_characterization 0xC0A80100 24 (by decide) (by decide) (by decide)
      22 (by decide)).2.2.2.2.1 (by decide) (by decide)⟩

/-- The candidate block at full prefix length is the single address. -/
theorem netBase_self (w a : Nat) : netBase w w a = a := by
  unfold netBase
  simp

theorem netFinal_self (w a : Nat) : netFinal w w a = a := by
  unfold netFinal
  rw [netBase_self]
  simp

theorem netBase_le_netFinal (w mask a : Nat) : netBase w mask a ≤ netFinal w mask a := by
  unfold netFinal
  omega

/-- Specification of the fit recursion: for `a ≤ b` it always returns a
block with `a ≤ base`, `final ≤ b`, exact precisely on a two-sided match,
before the prefix length can exceed the width. -/
theorem fitAux_spec (w a b : Nat) (hab : a ≤ b) :
    ∀ fuel mask, mask ≤ w → w + 1 - mask = fuel →
      ∃ base final exact, fitAux w a b mask fuel = some (base, final, exact) ∧
        a ≤ base ∧ final ≤ b ∧ base ≤ final ∧
        (exact = true ↔ (base = a ∧ final = b)) := by
  intro fuel
  induction fuel with
  | zero => intro mask h1 h2; omega
  | succ f ih =>
      intro mask hmw hfuel
      rw [fitAux]
      rw [if_neg (by omega : ¬ b < a)]
      by_cases c1 : netBase w mask a = a ∧ netFinal w mask a = b
      · rw [if_pos c1]
        exact ⟨_, _, _, rfl, le_of_eq c1.1.symm, le_of_eq c1.2,
          netBase_le_netFinal w mask a, by simp [c1.1, c1.2]⟩
      · rw [if_neg c1]
        by_cases c2 : a ≤ netBase w mask a ∧ netFinal w mask a ≤ b
        · rw [if_pos c2]
          refine ⟨_, _, _, rfl, c2.1, c2.2, netBase_le_netFinal w mask a, ?_⟩
          constructor
          · intro h
            exact absurd h (by simp)
          · intro h
            exact absurd h c1
        · rw [if_neg c2]
          have hlt : mask < w := by
            rcases Nat.eq_or_lt_of_le hmw with he | hl
            · exfalso
              apply c2
              rw [he, netBase_self, netFinal_self]
              exact ⟨le_refl a, hab⟩
            · exact hl
          exact ih (mask + 1) (by omega) (by omega)

/-- Comparing two addresses of the same family through To16 is comparing
their values. -/
theorem to16val_lt_iff (a b : Nat × Nat) (h : a.1 = b.1) :
    (to16val b < to16val a ↔ b.2 < a.2) := by
  unfold to16val
  rw [h]
  by_cases h32 : b.1 = 32 <;> simp [h32]

/-- C5: for same-family addresses with a ≤ b, NewNetBetween succeeds with a
block whose network address is ≥ a and whose final address is ≤ b, exact
precisely when both endpoints match; it fails with ErrNoValidRange when
a > b or when the effective versions differ. -/
theorem newNetBetween_spec (a b : Nat × Nat) (hwa : a.1 = 32 ∨ a.1 = 128)
    (hwb : b.1 = 32 ∨ b.1 = 128) :
    (a.1 = b.1 → a.2 ≤ b.2 →
      ∃ base final exact, NewNetBetween a b = some (.ok (base, final, exact)) ∧
        a.2 ≤ base ∧ final ≤ b.2 ∧ (exact = true ↔ (base = a.2 ∧ final = b.2))) ∧
    (a.1 = b.1 → b.2 < a.2 → NewNetBetween a b = some (.err .noValidRange)) ∧
    (a.1 ≠ b.1 → NewNetBetween a b = some (.err .noValidRange)) := by
  refine ⟨?_, ?_, ?_⟩
  · intro hfam hab
    unfold NewNetBetween
    rw [if_neg (by rw [to16val_lt_iff a b hfam]; omega)]
    rw [if_neg (show ¬ EffectiveVersion a ≠ EffectiveVersion b by
      unfold EffectiveVersion; rw [hfam]; simp)]
    have hw1 : 1 ≤ a.1 := by omega
    obtain ⟨base, final, exact, hfit, h1, h2, h3, h4⟩ :=
      fitAux_spec a.1 a.2 b.2 hab (a.1 + 1 - 1) 1 hw1 rfl
    refine ⟨base, final, exact, ?_, h1, h2, h4⟩
    rw [show fitNetworkBetween a.1 a.2 b.2 1 = fitAux a.1 a.2 b.2 1 (a.1 + 1 - 1) from rfl]
    rw [hfit]
    rfl
  · intro hfam hba
    unfold NewNetBetween
    rw [if_pos (by rw [to16val_lt_iff a b hfam]; omega)]
  · intro hne
    unfold NewNetBetween
    by_cases hcmp : to16val b < to16val a
    · rw [if_pos hcmp]
    · rw [if_neg hcmp]
      rw [if_pos (show EffectiveVersion a ≠ EffectiveVersion b by
        unfold EffectiveVersion
        rcases hwa with h1 | h1 <;> rcases hwb with g1 | g1 <;>
          simp [h1, g1] <;> omega)]

theorem newNetBetween_spec_witness :
    ∃ base final exact,
      NewNetBetween (32, 0xC0A80100) (32, 0xC0A80200) = some (.ok (base, final, exact)) ∧
        0xC0A80100 ≤ base ∧ final ≤ 0xC0A80200 ∧
        (exact = true ↔ (base = 0xC0A80100 ∧ final = 0xC0A80200)) :=
  (newNetBetween_spec (32, 0xC0A80100) (32, 0xC0A80200)
    (Or.inl rfl) (Or.inl rfl)).1 rfl (by decide)

/-- The AllNetsBetween loop always returns within `b + 2 - a` iterations:
each continuing iteration strictly advances the start address. -/
theorem allNetsLoop_isSome (w : Nat) (hw : 1 ≤ w) (bval : Nat) (hb : bval < 2 ^ w) :
    ∀ fuel aval last acc, 1 ≤ fuel → bval + 2 - aval ≤ fuel →
      (allNetsLoop w bval aval last acc fuel).isSome := by
  intro fuel
  induction fuel with
  | zero => intro aval last acc h1 h2; omega
  | succ f ih =>
      intro aval last acc h1 h2
      rw [allNetsLoop]
      by_cases hba : bval < aval
      · rw [if_pos hba]
        rfl
      · rw [if_neg hba]
        push_neg at hba
        obtain ⟨base, final, exact, hfit, hle1, hle2, hle3, hiff⟩ :=
          fitAux_spec w aval bval hba (w + 1 - 1) 1 hw rfl
        rw [show fitNetworkBetween w aval bval 1 = fitAux w aval bval 1 (w + 1 - 1) from rfl,
          hfit]
        dsimp only
        cases exact with
        | true => rw [if_pos rfl]; rfl
        | false =>
            rw [if_neg (by simp)]
            by_cases hover : bval < final
            · rw [if_pos hover]; rfl
            · rw [if_neg hover]
              have hne : ¬ (base = aval ∧ final = bval) := by
                intro hcon
                have := hiff.2 hcon
                simp at this
              have havalb : aval < bval ∨ (aval = bval ∧ False) := by
                rcases Nat.eq_or_lt_of_le hba with he | hl
                · exfalso
                  apply hne
                  constructor <;> omega
                · exact Or.inl hl
              have havallt : aval < bval := by
                rcases havalb with h | h
                · exact h
                · exact absurd h.2 (by simp)
              have ha2 : aval < nextIPw w final ∧ nextIPw w final ≤ final + 1 := by
                unfold nextIPw
                by_cases hcap : final + 1 < 2 ^ w
                · rw [if_pos hcap]
                  omega
                · rw [if_neg hcap]
                  constructor
                  · omega
                  · omega
              cases hprog : (match last with
                  | none => true
                  | some l => decide (l < base) : Bool) with
              | false => rw [if_neg (by simp)]; rfl
              | true =>
                  rw [if_pos rfl]
                  by_cases hout : bval < nextIPw w final
                  · rw [if_pos hout]; rfl
                  · rw [if_neg hout]
                    apply ih
                    · omega
                    · omega

/-- C7: the recursive best-fit search returns before the prefix length can
exceed the address width (the full-width single-address block always fits),
and the AllNetsBetween loop returns within a bounded number of iterations
because every continuing iteration strictly advances the start address. -/
theorem range_search_terminates (w : Nat) (hw : 1 ≤ w) :
    (∀ a b mask, mask ≤ w → (fitNetworkBetween w a b mask).isSome) ∧
    (∀ (a b : Nat × Nat) fuel, a.1 = w → b.2 < 2 ^ w → 1 ≤ fuel →
      b.2 + 2 - a.2 ≤ fuel → (AllNetsBetween a b fuel).isSome) := by
  constructor
  · intro a b mask hm
    unfold fitNetworkBetween
    by_cases hba : b < a
    · obtain ⟨f, hf⟩ : ∃ f, w + 1 - mask = f + 1 := ⟨w - mask, by omega⟩
      rw [hf, fitAux, if_pos hba]
      rfl
    · push_neg at hba
      obtain ⟨base, final, exact, hfit, _, _, _, _⟩ :=
        fitAux_spec w a b hba (w + 1 - mask) mask hm rfl
      rw [hfit]
      rfl
  · intro a b fuel haw hbv h1 h2
    unfold AllNetsBetween
    by_cases hver : EffectiveVersion a ≠ EffectiveVersion b
    · rw [if_pos hver]
      rfl
    · rw [if_neg hver]
      subst haw
      exact allNetsLoop_isSome a.1 hw b.2 hbv fuel a.2 none [] h1 h2

theorem range_search_terminates_witness :
    (fitNetworkBetween 32 0xC0A800FF 0xC0A80102 1).isSome ∧
    (AllNetsBetween (32, 0xC0A800FF) (32, 0xC0A80102) 0x105).isSome :=
  ⟨(range_search_terminates 32 (by decide)).1 0xC0A800FF 0xC0A80102 1 (by decide),
   (range_search_terminates 32 (by decide)).2 (32, 0xC0A800FF) (32, 0xC0A80102) 0x105
     rfl (by decide) (by decide) (by decide)⟩

/-! ## Characterization of IncrementIP6WithinHostmask (C1) -/

/-- Boundary byte position of NewHostMask for a given mask length. -/
def pOf (h : Nat) : Nat := 15 - (if h % 8 = 0 then h / 8 - 1 else h / 8)

/-- Boundary byte value of NewHostMask for a given mask length. -/
def mbOf (h : Nat) : Nat := if h % 8 = 0 then 255 else 256 - 2 ^ (8 - h % 8)

/-- Exponent of the boundary byte's unmasked capacity: 256 - mbOf = 2^eOf. -/
def eOf (h : Nat) : Nat := if h % 8 = 0 then 0 else 8 - h % 8

/-- Shape of NewHostMask for lengths whose boundary byte is at position 1 or
greater: zeroes above the boundary byte, all-ones below it, and the
boundary value's unmasked capacity is a power of two. -/
theorem hostmask_shape (hmlen : Nat) (h1 : 1 ≤ hmlen) (h2 : hmlen ≤ 120) :
    BoundaryByte (NewHostMask hmlen) = (mbOf hmlen, (pOf hmlen : Int)) ∧
    NewHostMask hmlen =
      List.replicate (pOf hmlen) 0 ++ mbOf hmlen :: List.replicate (15 - pOf hmlen) 255 ∧
    1 ≤ pOf hmlen ∧ pOf hmlen ≤ 15 ∧
    256 - mbOf hmlen = 2 ^ eOf hmlen ∧ eOf hmlen ≤ 7 ∧ 128 ≤ mbOf hmlen := by
  interval_cases hmlen <;> exact ⟨by decide, by decide, by decide, by decide, by decide,
    by decide, by decide⟩

theorem pow256_pow2 (p : Nat) : (256:Nat) ^ p = 2 ^ (8 * p) := by
  rw [show (256:Nat) = 2 ^ 8 by norm_num, ← pow_mul]

theorem bytesToNat_replicate_zero (n : Nat) : bytesToNat (List.replicate n 0) = 0 := by
  induction n with
  | zero => rfl
  | succ n ih => rw [List.replicate_succ, bytesToNat_cons, ih]; ring

/-- Value of a block-form address: high bytes, one digit byte, zero tail. -/
theorem bytesToNat_block (A : List Nat) (d n : Nat) :
    bytesToNat (A ++ d :: List.replicate n 0) = (bytesToNat A * 256 + d) * 256 ^ n := by
  rw [bytesToNat_append, bytesToNat_cons, bytesToNat_replicate_zero]
  simp only [List.length_cons, List.length_replicate]
  rw [pow_succ]
  ring

/-- Two-digit comparison in a mixed radix: if both low digits are below the
digit base M, comparing at radix 256 and at radix M agree. -/
theorem digit_lt_iff (x y r t B : Nat) (hB : 0 < B) (hr : r < B) (ht : t < B) :
    x * B + r < y * B + t ↔ (x < y ∨ (x = y ∧ r < t)) := by
  constructor
  · intro h
    rcases lt_trichotomy x y with hxy | hxy | hxy
    · exact Or.inl hxy
    · exact Or.inr ⟨hxy, by subst hxy; omega⟩
    · exfalso
      have : y * B + B ≤ x * B := by
        have h2 : (y + 1) * B ≤ x * B := Nat.mul_le_mul_right B (by omega)
        calc y * B + B = (y + 1) * B := by ring
          _ ≤ x * B := h2
      omega
  · intro h
    rcases h with hxy | ⟨hxy, hrt⟩
    · have : x * B + B ≤ y * B := by
        have h2 : (x + 1) * B ≤ y * B := Nat.mul_le_mul_right B (by omega)
        calc x * B + B = (x + 1) * B := by ring
          _ ≤ y * B := h2
      omega
    · subst hxy; omega

/-- Reducing a digit-decomposed value modulo the full capacity reduces the
high part modulo the number of high values. -/
theorem digit_mod (x r N M : Nat) (hr : r < M) (hN : 0 < N) :
    (x * M + r) % (N * M) = (x % N) * M + r := by
  have h1 : (N * (x / N) + x % N) * M + r = (x % N) * M + r + (N * M) * (x / N) := by ring
  calc (x * M + r) % (N * M)
      = ((N * (x / N) + x % N) * M + r) % (N * M) := by rw [Nat.div_add_mod]
    _ = ((x % N) * M + r + (N * M) * (x / N)) % (N * M) := by rw [h1]
    _ = ((x % N) * M + r) % (N * M) := by rw [Nat.add_mul_mod_self_left]
    _ = (x % N) * M + r := by
        apply Nat.mod_eq_of_lt
        have hx : x % N < N := Nat.mod_lt _ hN
        calc (x % N) * M + r < (x % N) * M + M := by omega
          _ = (x % N + 1) * M := by ring
          _ ≤ N * M := Nat.mul_le_mul_right M (by omega)

/-- For a boundary value inside its capacity, incrementBoundaryByte is
division with remainder of the wrapped count by the capacity. -/
theorem incrementBoundaryByte_eq (mb bv c : Nat) (hM0 : 0 < 256 - mb)
    (hbv : bv < 256 - mb) :
    incrementBoundaryByte mb bv c =
      ((c + bv) % 2 ^ 128 / (256 - mb), (c + bv) % 2 ^ 128 % (256 - mb) % 256) := by
  unfold incrementBoundaryByte
  by_cases hc0 : c = 0
  · rw [if_pos hc0]
    subst hc0
    have hb128 : (0 + bv) % 2 ^ 128 = bv := by
      rw [Nat.zero_add]
      exact Nat.mod_eq_of_lt (by omega)
    rw [hb128]
    rw [Nat.div_eq_of_lt hbv, Nat.mod_eq_of_lt hbv, Nat.mod_eq_of_lt (by omega)]
  · rw [if_neg hc0]
    by_cases hsM : (c + bv) % 2 ^ 128 < 256 - mb
    · rw [if_pos hsM]
      rw [Nat.div_eq_of_lt hsM, Nat.mod_eq_of_lt hsM]
    · rw [if_neg hsM]

/-- incrementUnmaskedBytes is addition modulo the width of the byte range. -/
theorem incrementUnmaskedBytes_eq (nb : List Nat) (hg : goodBytes nb)
    (hlen : nb.length ≤ 16) (q : Nat) :
    incrementUnmaskedBytes nb q =
      natToBytes nb.length ((bytesToNat nb + q) % 2 ^ (8 * nb.length)) := by
  unfold incrementUnmaskedBytes
  by_cases hq : q = 0
  · rw [if_pos hq]
    subst hq
    rw [Nat.add_zero]
    rw [Nat.mod_eq_of_lt (by rw [← pow256_pow2]; exact bytesToNat_lt nb hg)]
    exact (natToBytes_bytesToNat nb hg).symm
  · rw [if_neg hq]
    rw [natToBytes_drop 16 nb.length _ hlen]
    congr 1
    rw [pow256_pow2]
    exact Nat.mod_mod_of_dvd _ (pow_dvd_pow 2 (by omega))

/-- Division with remainder at an exact digit decomposition. -/
theorem digit_div_mod (x r M : Nat) (hM : 0 < M) (hr : r < M) :
    (x * M + r) / M = x ∧ (x * M + r) % M = r := by
  constructor
  · rw [add_comm, Nat.add_mul_div_right _ _ hM, Nat.div_eq_of_lt hr]
    omega
  · rw [add_comm, Nat.add_mul_mod_self_right]
    exact Nat.mod_eq_of_lt hr


/-- Core computation of IncrementIP6WithinHostmask over an abstract boundary
configuration: position `p ≥ 1`, boundary byte `mb` with power-of-two
capacity `256 - mb = 2^e`.  The input address must have zero bytes beyond
the boundary and a boundary byte inside the capacity.  The function adds
`c` to the unmasked region modulo its capacity and raises
ErrAddressOutOfRange exactly when the reduced value is below the original
one. -/
theorem incrementWithinHostmask_general (p mb e : Nat) (hp1 : 1 ≤ p) (hp15 : p ≤ 15)
    (hMe : 256 - mb = 2 ^ e) (he7 : e ≤ 7) (hmb : 128 ≤ mb) (hm : List Nat)
    (hBB : BoundaryByte hm = (mb, (p : Int)))
    (ip : List Nat) (hlen : ip.length = 16) (hgood : goodBytes ip)
    (hzero : ∀ x ∈ ip.drop (p + 1), x = 0)
    (hbv : ip.getD p 0 < 256 - mb) (c : Nat) :
    IncrementIP6WithinHostmask ip hm c =
      if (bytesToNat (ip.take p) * (256 - mb) + ip.getD p 0 + c) %
            (2 ^ (8 * p) * (256 - mb)) <
          bytesToNat (ip.take p) * (256 - mb) + ip.getD p 0
      then .err .addressOutOfRange
      else .ok (natToBytes p
            ((bytesToNat (ip.take p) * (256 - mb) + ip.getD p 0 + c) %
              (2 ^ (8 * p) * (256 - mb)) / (256 - mb)) ++
          ((bytesToNat (ip.take p) * (256 - mb) + ip.getD p 0 + c) %
              (2 ^ (8 * p) * (256 - mb)) % (256 - mb)) ::
          List.replicate (15 - p) 0) := by
  have hM0 : 0 < 256 - mb := by
    rw [hMe]
    exact Nat.pos_pow_of_pos _ (by norm_num)
  have hM128 : 256 - mb ≤ 128 := by omega
  have htlen : (ip.take p).length = p := by
    rw [List.length_take, hlen]
    omega
  have htgood : goodBytes (ip.take p) := fun x hx => hgood x (List.take_subset p ip hx)
  have hulb : bytesToNat (ip.take p) < 2 ^ (8 * p) := by
    have h := bytesToNat_lt _ htgood
    rw [htlen, pow256_pow2] at h
    exact h
  have hN0 : 0 < 2 ^ (8 * p) := Nat.pos_pow_of_pos _ (by norm_num)
  have hCdvd : (2 ^ (8 * p) * (256 - mb)) ∣ 2 ^ 128 := by
    rw [hMe, ← pow_add]
    exact pow_dvd_pow 2 (by omega)
  have hplt : p < ip.length := by omega
  have hipdecomp : ip = ip.take p ++ ip.getD p 0 :: List.replicate (15 - p) 0 := by
    have hd : ip.drop (p + 1) = List.replicate (15 - p) 0 := by
      rw [List.eq_replicate]
      exact ⟨by rw [List.length_drop, hlen]; omega, hzero⟩
    have ht : ip.take (p + 1) = ip.take p ++ [ip.getD p 0] := by
      rw [List.getD_eq_getElem ip 0 hplt, ← List.take_concat_get ip p hplt,
        List.concat_eq_append]
    conv_lhs => rw [← List.take_append_drop (p + 1) ip]
    rw [ht, hd, List.append_assoc]
    rfl
  have hipval : bytesToNat ip =
      (bytesToNat (ip.take p) * 256 + ip.getD p 0) * 256 ^ (15 - p) := by
    conv_lhs => rw [hipdecomp]
    exact bytesToNat_block _ _ _
  unfold IncrementIP6WithinHostmask
  rw [hBB]
  dsimp only
  rw [if_neg (show ¬ ((p : Nat) : Int) = 0 by omega)]
  rw [if_neg (show ¬ ((p : Nat) : Int) = -1 by omega)]
  simp only [Int.toNat_natCast]
  rw [if_neg (show ¬ ((ip.drop (p + 1)).any (fun b => 0 < b) = true) by
    rw [List.any_eq_true]
    rintro ⟨x, hx, hlt⟩
    have hx0 := hzero x hx
    simp [hx0] at hlt)]
  rw [incrementBoundaryByte_eq mb _ c hM0 hbv]
  dsimp only
  rw [incrementUnmaskedBytes_eq _ htgood (by omega) _]
  rw [htlen]
  rw [if_neg (show ¬ p < (natToBytes p
      ((bytesToNat (ip.take p) + (c + ip.getD p 0) % 2 ^ 128 / (256 - mb)) %
        2 ^ (8 * p))).length by
    rw [natToBytes_length]
    omega)]
  have hD : (c + ip.getD p 0) % 2 ^ 128 % (256 - mb) % 256 =
      (c + ip.getD p 0) % 2 ^ 128 % (256 - mb) :=
    Nat.mod_eq_of_lt (lt_of_lt_of_le (Nat.mod_lt _ hM0) (by omega))
  rw [hD]
  have hdM : (c + ip.getD p 0) % 2 ^ 128 % (256 - mb) < 256 - mb := Nat.mod_lt _ hM0
  have hu2lt : (bytesToNat (ip.take p) + (c + ip.getD p 0) % 2 ^ 128 / (256 - mb)) %
      2 ^ (8 * p) < 2 ^ (8 * p) := Nat.mod_lt _ hN0
  have hcodeval : bytesToNat (natToBytes p
        ((bytesToNat (ip.take p) + (c + ip.getD p 0) % 2 ^ 128 / (256 - mb)) % 2 ^ (8 * p)) ++
        ((c + ip.getD p 0) % 2 ^ 128 % (256 - mb)) :: List.replicate (15 - p) 0) =
      ((bytesToNat (ip.take p) + (c + ip.getD p 0) % 2 ^ 128 / (256 - mb)) % 2 ^ (8 * p) * 256 +
        (c + ip.getD p 0) % 2 ^ 128 % (256 - mb)) * 256 ^ (15 - p) := by
    rw [bytesToNat_block, bytesToNat_natToBytes]
    rw [Nat.mod_eq_of_lt (by rw [pow256_pow2]; exact hu2lt)]
  have hV2 : (bytesToNat (ip.take p) * (256 - mb) + ip.getD p 0 + c) %
        (2 ^ (8 * p) * (256 - mb)) =
      (bytesToNat (ip.take p) + (c + ip.getD p 0) % 2 ^ 128 / (256 - mb)) % 2 ^ (8 * p) *
        (256 - mb) + (c + ip.getD p 0) % 2 ^ 128 % (256 - mb) := by
    have hcbv : c + ip.getD p 0 =
        2 ^ 128 * ((c + ip.getD p 0) / 2 ^ 128) + (c + ip.getD p 0) % 2 ^ 128 :=
      (Nat.div_add_mod _ _).symm
    have hVc : bytesToNat (ip.take p) * (256 - mb) + ip.getD p 0 + c =
        bytesToNat (ip.take p) * (256 - mb) + (c + ip.getD p 0) % 2 ^ 128 +
          2 ^ 128 * ((c + ip.getD p 0) / 2 ^ 128) := by omega
    rw [hVc]
    have hzero128 : (2 ^ 128 * ((c + ip.getD p 0) / 2 ^ 128)) %
        (2 ^ (8 * p) * (256 - mb)) = 0 :=
      Nat.mod_eq_zero_of_dvd (hCdvd.mul_right _)
    rw [Nat.add_mod, hzero128, Nat.add_zero, Nat.mod_mod_of_dvd _ (dvd_refl _)]
    have hdm := Nat.div_add_mod ((c + ip.getD p 0) % 2 ^ 128) (256 - mb)
    have hsplit2 : bytesToNat (ip.take p) * (256 - mb) + (c + ip.getD p 0) % 2 ^ 128 =
        (bytesToNat (ip.take p) + (c + ip.getD p 0) % 2 ^ 128 / (256 - mb)) * (256 - mb) +
          (c + ip.getD p 0) % 2 ^ 128 % (256 - mb) := by
      conv_lhs => rw [← hdm]
      ring
    rw [hsplit2, digit_mod _ _ _ _ hdM hN0]
  have hbv256 : ip.getD p 0 < 256 := by omega
  have hD256 : (c + ip.getD p 0) % 2 ^ 128 % (256 - mb) < 256 := by omega
  have hcond : (bytesToNat (natToBytes p
        ((bytesToNat (ip.take p) + (c + ip.getD p 0) % 2 ^ 128 / (256 - mb)) % 2 ^ (8 * p)) ++
        ((c + ip.getD p 0) % 2 ^ 128 % (256 - mb)) :: List.replicate (15 - p) 0) <
        bytesToNat ip) ↔
      ((bytesToNat (ip.take p) * (256 - mb) + ip.getD p 0 + c) %
          (2 ^ (8 * p) * (256 - mb)) <
        bytesToNat (ip.take p) * (256 - mb) + ip.getD p 0) := by
    rw [hcodeval, hipval, hV2]
    rw [Nat.mul_lt_mul_right (Nat.pos_pow_of_pos _ (by norm_num : (0:Nat) < 256))]
    rw [digit_lt_iff _ _ _ _ 256 (by norm_num) hD256 hbv256]
    rw [digit_lt_iff _ _ _ _ (256 - mb) hM0 hdM hbv]
  have hok : natToBytes p
        ((bytesToNat (ip.take p) + (c + ip.getD p 0) % 2 ^ 128 / (256 - mb)) % 2 ^ (8 * p)) ++
        ((c + ip.getD p 0) % 2 ^ 128 % (256 - mb)) :: List.replicate (15 - p) 0 =
      natToBytes p
        ((bytesToNat (ip.take p) * (256 - mb) + ip.getD p 0 + c) %
          (2 ^ (8 * p) * (256 - mb)) / (256 - mb)) ++
        ((bytesToNat (ip.take p) * (256 - mb) + ip.getD p 0 + c) %
          (2 ^ (8 * p) * (256 - mb)) % (256 - mb)) :: List.replicate (15 - p) 0 := by
    rw [hV2]
    rw [(digit_div_mod _ _ _ hM0 hdM).1, (digit_div_mod _ _ _ hM0 hdM).2]
  exact if_congr hcond rfl (congrArg Res.ok hok)

/-- C1 (amended): for every hostmask whose boundary byte lies at position 1
or greater (lengths 1-120) and every address valid under it (bytes beyond
the boundary zero and the boundary byte's masked bits clear),
IncrementIP6WithinHostmask adds the count to the unmasked region — the
more-significant bytes together with the boundary byte as lowest digit in
base 256 - maskByte — modulo the region's capacity, and re-encodes that
value; when V + c fits in the region the result is its exact encoding with
no error, but ErrAddressOutOfRange is returned exactly when the wrapped
value is below V, so an overflow that wraps to a value at or above V is
returned silently instead of being reported. -/
theorem incrementWithinHostmask_spec (hmlen : Nat) (h1 : 1 ≤ hmlen) (h2 : hmlen ≤ 120)
    (ip : List Nat) (hlen : ip.length = 16) (hgood : goodBytes ip)
    (hzero : ∀ x ∈ ip.drop (pOf hmlen + 1), x = 0)
    (hbv : ip.getD (pOf hmlen) 0 < 256 - mbOf hmlen)
    (c : Nat) (hc : c < 2 ^ 128) :
    IncrementIP6WithinHostmask ip (NewHostMask hmlen) c =
      if (bytesToNat (ip.take (pOf hmlen)) * (256 - mbOf hmlen) + ip.getD (pOf hmlen) 0 + c) %
            (2 ^ (8 * pOf hmlen) * (256 - mbOf hmlen)) <
          bytesToNat (ip.take (pOf hmlen)) * (256 - mbOf hmlen) + ip.getD (pOf hmlen) 0
      then .err .addressOutOfRange
      else .ok (natToBytes (pOf hmlen)
            ((bytesToNat (ip.take (pOf hmlen)) * (256 - mbOf hmlen) +
                ip.getD (pOf hmlen) 0 + c) %
              (2 ^ (8 * pOf hmlen) * (256 - mbOf hmlen)) / (256 - mbOf hmlen)) ++
          ((bytesToNat (ip.take (pOf hmlen)) * (256 - mbOf hmlen) +
                ip.getD (pOf hmlen) 0 + c) %
              (2 ^ (8 * pOf hmlen) * (256 - mbOf hmlen)) % (256 - mbOf hmlen)) ::
          List.replicate (15 - pOf hmlen) 0) := by
  obtain ⟨hBB, hShape, hp1, hp15, hMe, he7, hmb⟩ := hostmask_shape hmlen h1 h2
  exact incrementWithinHostmask_general (pOf hmlen) (mbOf hmlen) (eOf hmlen) hp1 hp15
    hMe he7 hmb _ hBB ip hlen hgood hzero hbv c

theorem incrementWithinHostmask_spec_witness :
    IncrementIP6WithinHostmask (List.replicate 16 0) (NewHostMask 60) 5 =
      .ok (List.replicate 8 0 ++ 5 :: List.replicate 7 0) := by
  rw [incrementWithinHostmask_spec 60 (by decide) (by decide) (List.replicate 16 0)
    (by decide) (by unfold goodBytes; decide) (by decide) (by decide) 5 (by decide)]
  decide
